import Mathlib

/-!
# Verification of the `textprep` text-preprocessing core

Shallow embedding of the `textprep` Rust crate (files `src/unicode.rs`,
`src/fold.rs`, `src/lib.rs`, `src/flash.rs`).  A Rust `String` / `&str` is
modelled as a `List Char` of Unicode scalar values; the functions below are
direct transliterations of the corresponding Rust functions.  Characters
outside ASCII are written by code point (`Char.toNat` comparisons and
`Char.ofNat`) so every constant is visible in the source.

The crate consumes a few external primitives that are not part of the
repository (the `unicode-normalization` crate's NFC/NFKC/NFD conversions,
Rust's `char::to_lowercase` / `str::to_lowercase`, `char::is_whitespace`,
and the `aho-corasick` automaton).  Those are modelled from the spec as
scalar-wise finite tables / reference algorithms; each such definition is
marked `Modelled from the spec:` in its doc comment.
-/

/-! ## Character classes (src/unicode.rs) -/

/-- The five-member zero-width set targeted by `remove_zero_width`
(U+200B ZWSP, U+200C ZWNJ, U+200D ZWJ, U+2060 WORD JOINER, U+FEFF BOM). -/
def isZeroWidth (c : Char) : Bool :=
  c.toNat = 0x200B || c.toNat = 0x200C || c.toNat = 0x200D ||
  c.toNat = 0x2060 || c.toNat = 0xFEFF

/-- The twelve-member bidi-control set targeted by `remove_bidi_controls`
(U+202A..U+202E embeddings/overrides, U+2066..U+2069 isolates,
U+200E/U+200F LRM/RLM, U+061C ALM). -/
def isBidiControl (c : Char) : Bool :=
  c.toNat = 0x202A || c.toNat = 0x202B || c.toNat = 0x202C ||
  c.toNat = 0x202D || c.toNat = 0x202E ||
  c.toNat = 0x2066 || c.toNat = 0x2067 || c.toNat = 0x2068 || c.toNat = 0x2069 ||
  c.toNat = 0x200E || c.toNat = 0x200F || c.toNat = 0x061C

/-- Rust `remove_zero_width` (src/unicode.rs): filter out the zero-width set. -/
def remove_zero_width (text : List Char) : List Char :=
  text.filter (fun c => !isZeroWidth c)

/-- Rust `remove_zero_width_into` (src/unicode.rs): clears `out`, then extends it
with the same filtered character stream; the prior contents of `out` are
discarded by `out.clear()`. -/
def remove_zero_width_into (text : List Char) ( _buf : List Char) : List Char :=
  text.filter (fun c => !isZeroWidth c)

/-- Rust `contains_zero_width` (src/unicode.rs). -/
def contains_zero_width (text : List Char) : Bool :=
  text.any (fun c => isZeroWidth c)

/-- Rust `zero_width_with_offsets` (src/unicode.rs): enumerate characters with
character offsets and keep the zero-width ones. -/
def zero_width_with_offsets (text : List Char) : List (Nat × Char) :=
  text.enum.filter (fun p => isZeroWidth p.2)

/-- Rust `remove_bidi_controls` (src/unicode.rs). -/
def remove_bidi_controls (text : List Char) : List Char :=
  text.filter (fun c => !isBidiControl c)

/-- Rust `remove_bidi_controls_into` (src/unicode.rs): clears `out` first, so the
prior contents of `out` are irrelevant. -/
def remove_bidi_controls_into (text : List Char) ( _buf : List Char) : List Char :=
  text.filter (fun c => !isBidiControl c)

/-- Rust `contains_bidi_controls` (src/unicode.rs). -/
def contains_bidi_controls (text : List Char) : Bool :=
  text.any (fun c => isBidiControl c)

/-- Rust `bidi_controls_with_offsets` (src/unicode.rs). -/
def bidi_controls_with_offsets (text : List Char) : List (Nat × Char) :=
  text.enum.filter (fun p => isBidiControl p.2)

/-! ## Newline normalization (src/unicode.rs) -/

/-- Rust `normalize_newlines` (src/unicode.rs): CRLF and bare CR become LF,
scanning left to right with one character of lookahead. -/
def normalize_newlines : List Char → List Char
  | [] => []
  | '\r' :: '\n' :: rest => '\n' :: normalize_newlines rest
  | '\r' :: rest => '\n' :: normalize_newlines rest
  | c :: rest => c :: normalize_newlines rest

/-- Rust `normalize_newlines_into` (src/unicode.rs): clears `out` first, then runs
the same scan, so the prior contents of `out` are irrelevant. -/
def normalize_newlines_into (text : List Char) ( _buf : List Char) : List Char :=
  normalize_newlines text

/-! ## Whitespace collapsing (src/unicode.rs) -/

/-- Modelled from the spec: Rust's `char::is_whitespace`, i.e. the Unicode
`White_Space` property (an external standard-library primitive, not code of
this repository).  The 25 White_Space scalar values: U+0009..U+000D, U+0020,
U+0085, U+00A0, U+1680, U+2000..U+200A, U+2028, U+2029, U+202F, U+205F,
U+3000. -/
def isWhitespace (c : Char) : Bool :=
  (0x0009 ≤ c.toNat && c.toNat ≤ 0x000D) || c.toNat = 0x0020 ||
  c.toNat = 0x0085 || c.toNat = 0x00A0 || c.toNat = 0x1680 ||
  (0x2000 ≤ c.toNat && c.toNat ≤ 0x200A) ||
  c.toNat = 0x2028 || c.toNat = 0x2029 || c.toNat = 0x202F ||
  c.toNat = 0x205F || c.toNat = 0x3000

/-- The loop body of `collapse_whitespace` (src/unicode.rs): `inWs` is the
`in_ws` flag, `out` the output buffer.  Whitespace sets the flag and is
dropped; a non-whitespace character first emits a single ASCII space when it
ends a whitespace run and the output is nonempty. -/
def collapseLoop : Bool → List Char → List Char → List Char
  | _, out, [] => out
  | inWs, out, c :: rest =>
    if isWhitespace c then
      collapseLoop true out rest
    else
      collapseLoop false (out ++ (if inWs && !out.isEmpty then [' ', c] else [c])) rest

/-- Rust `collapse_whitespace` (src/unicode.rs): collapse every Unicode whitespace
run to a single ASCII space, trimming by construction (`in_ws` starts true). -/
def collapse_whitespace (text : List Char) : List Char :=
  collapseLoop true [] text

/-- Rust `collapse_whitespace_into` (src/unicode.rs): clears `out` first, then runs
the same loop, so the prior contents of `out` are irrelevant. -/
def collapse_whitespace_into (text : List Char) ( _buf : List Char) : List Char :=
  collapseLoop true [] text

example : collapse_whitespace "  hello\tworld \n x ".data = "hello world x".data := by decide
example : normalize_newlines "a\r\nb\rc\nd".data = "a\nb\nc\nd".data := by decide
example : remove_zero_width ['a', Char.ofNat 0x200B, 'b', Char.ofNat 0x200C, 'c'] = "abc".data := by decide
example : zero_width_with_offsets ['a', Char.ofNat 0x200B, 'b'] = [(1, Char.ofNat 0x200B)] := by decide

/-! ## External Unicode primitives (modelled) and src/fold.rs -/

/-- Modelled from the spec: canonical decomposition (NFD) from the external
`unicode-normalization` crate, which is outside this repository.  Modelled as
a scalar-wise mapping: a finite table of canonical decompositions (identity on
every scalar value not listed); canonical reordering and cross-character
effects are not modelled.  Table entries follow the real Unicode data for the
scalar values exercised in this development. -/
def nfdChar (c : Char) : List Char :=
  if c.toNat = 0xE9 then ['e', Char.ofNat 0x0301]        -- e acute
  else if c.toNat = 0xC9 then ['E', Char.ofNat 0x0301]
  else if c.toNat = 0xFC then ['u', Char.ofNat 0x0308]   -- u diaeresis
  else if c.toNat = 0xDC then ['U', Char.ofNat 0x0308]
  else if c.toNat = 0xE4 then ['a', Char.ofNat 0x0308]   -- a diaeresis
  else if c.toNat = 0xE7 then ['c', Char.ofNat 0x0327]   -- c cedilla
  else if c.toNat = 0xC7 then ['C', Char.ofNat 0x0327]
  else if c.toNat = 0xC5 then ['A', Char.ofNat 0x030A]   -- A ring
  else if c.toNat = 0xE5 then ['a', Char.ofNat 0x030A]
  else if c.toNat = 0x304C then [Char.ofNat 0x304B, Char.ofNat 0x3099] -- hiragana GA
  else [c]

/-- Rust `nfd` (src/unicode.rs): `text.nfd().collect()` over the modelled
decomposition. -/
def nfd (text : List Char) : List Char :=
  text.flatMap nfdChar

/-- Modelled from the spec: NFC conversion from the external
`unicode-normalization` crate (outside this repository), as a scalar-wise
mapping: identity except singleton canonical decompositions
(e.g. U+212B ANGSTROM SIGN); cross-character composition is not modelled. -/
def nfcChar (c : Char) : List Char :=
  if c.toNat = 0x212B then [Char.ofNat 0xC5]
  else [c]

/-- Rust `nfc` (src/unicode.rs): `text.nfc().collect()` over the modelled
conversion. -/
def nfc (text : List Char) : List Char :=
  text.flatMap nfcChar

/-- Modelled from the spec: NFKC conversion from the external
`unicode-normalization` crate (outside this repository), as a scalar-wise
mapping: a finite table of compatibility decompositions (identity elsewhere);
cross-character composition is not modelled.  Table entries follow the real
Unicode data for the scalar values exercised in this development. -/
def nfkcChar (c : Char) : List Char :=
  if c.toNat = 0xFB01 then ['f', 'i']                    -- fi ligature
  else if c.toNat = 0xA8 then [' ', Char.ofNat 0x0308]   -- diaeresis
  else if c.toNat = 0x3000 then [' ']                    -- ideographic space
  else if c.toNat = 0x212B then [Char.ofNat 0xC5]        -- angstrom sign
  else [c]

/-- Rust `nfkc` (src/unicode.rs): `text.nfkc().collect()` over the modelled
conversion. -/
def nfkc (text : List Char) : List Char :=
  text.flatMap nfkcChar

/-- Modelled from the spec: Rust's Unicode-aware `str::to_lowercase`
(an external standard-library primitive, not code of this repository),
as a scalar-wise mapping given by a finite table (identity elsewhere);
a character may lowercase to several characters (e.g. U+0130). -/
def lowerChar (c : Char) : List Char :=
  if 0x41 ≤ c.toNat && c.toNat ≤ 0x5A then [Char.ofNat (c.toNat + 0x20)]
  else if c.toNat = 0xC9 then [Char.ofNat 0xE9]
  else if c.toNat = 0xDC then [Char.ofNat 0xFC]
  else if c.toNat = 0xC7 then [Char.ofNat 0xE7]
  else if c.toNat = 0xC5 then [Char.ofNat 0xE5]
  else if c.toNat = 0x130 then ['i', Char.ofNat 0x0307]  -- dotted capital I
  else if c.toNat = 0x3A3 then [Char.ofNat 0x3C3]        -- capital sigma
  else [c]

/-- Rust `fold` (src/fold.rs): `text.to_lowercase()` over the modelled mapping. -/
def fold (text : List Char) : List Char :=
  text.flatMap lowerChar

/-- Rust `is_combining_mark` (src/fold.rs): the four Combining Diacritical Marks
blocks U+0300..U+036F, U+1DC0..U+1DFF, U+20D0..U+20FF, U+FE20..U+FE2F. -/
def is_combining_mark (c : Char) : Bool :=
  (0x0300 ≤ c.toNat && c.toNat ≤ 0x036F) ||
  (0x1DC0 ≤ c.toNat && c.toNat ≤ 0x1DFF) ||
  (0x20D0 ≤ c.toNat && c.toNat ≤ 0x20FF) ||
  (0xFE20 ≤ c.toNat && c.toNat ≤ 0xFE2F)

/-- Rust `strip_diacritics` (src/fold.rs):
`text.nfd().filter(|c| !is_combining_mark(*c)).collect()`. -/
def strip_diacritics (text : List Char) : List Char :=
  (nfd text).filter (fun c => !is_combining_mark c)

/-- Modelled from the spec: the Unicode notion of a combining mark (general
category M), which the spec's step 6 refers to; this is a property of the
Unicode character database, external to the repository.  Finite
under-approximation: the four diacritical blocks together with the
kana voicing marks U+3099..U+309A, Hebrew points U+0591..U+05BD and Arabic
harakat U+064B..U+065F; every scalar listed is a genuine category-M mark. -/
def isUnicodeCombiningMark (c : Char) : Bool :=
  is_combining_mark c ||
  (0x3099 ≤ c.toNat && c.toNat ≤ 0x309A) ||
  (0x0591 ≤ c.toNat && c.toNat ≤ 0x05BD) ||
  (0x064B ≤ c.toNat && c.toNat ≤ 0x065F)

/-! ## The scrub pipeline (src/lib.rs) -/

/-- Rust `ScrubNormalization` (src/lib.rs). -/
inductive ScrubNormalization where
  | None
  | Nfc
  | Nfkc
deriving DecidableEq, Repr

/-- Rust `ScrubCase` (src/lib.rs), built without the optional `casefold` feature:
the `NfkcCasefold` variant is feature-gated out and `search_key()` falls back
to `Lower` (src/lib.rs lines 92-103). -/
inductive ScrubCase where
  | None
  | Lower
deriving DecidableEq, Repr

/-- Rust `ScrubConfig` (src/lib.rs). -/
structure ScrubConfig where
  normalize_newlines : Bool
  remove_zero_width : Bool
  remove_bidi_controls : Bool
  collapse_whitespace : Bool
  normalization : ScrubNormalization
  case : ScrubCase
  strip_diacritics : Bool
deriving DecidableEq, Repr

/-- Rust `ScrubConfig::search_key` (src/lib.rs, `casefold` feature disabled). -/
def ScrubConfig.search_key : ScrubConfig :=
  { normalize_newlines := true
    remove_zero_width := false
    remove_bidi_controls := true
    collapse_whitespace := true
    normalization := ScrubNormalization.Nfkc
    case := ScrubCase.Lower
    strip_diacritics := true }

/-- Rust `ScrubConfig::search_key_strict_invisibles` (src/lib.rs): `search_key`
with `remove_zero_width` switched on. -/
def ScrubConfig.search_key_strict_invisibles : ScrubConfig :=
  { ScrubConfig.search_key with remove_zero_width := true }

/-- Rust `scrub_with` (src/lib.rs).  The Rust function threads a scratch buffer
through the `*_into` steps and swaps it with `s` after each enabled step;
the state `(s, buf)` is carried as a pair, `.1` playing `s` and `.2`
playing `buf`. -/
def scrub_with (text : List Char) (cfg : ScrubConfig) : List Char :=
  let sb0 : List Char × List Char := (text, [])
  let sb1 := if cfg.normalize_newlines then
    (normalize_newlines_into sb0.1 sb0.2, sb0.1) else sb0
  let sb2 := if cfg.remove_zero_width then
    (remove_zero_width_into sb1.1 sb1.2, sb1.1) else sb1
  let sb3 := if cfg.remove_bidi_controls then
    (remove_bidi_controls_into sb2.1 sb2.2, sb2.1) else sb2
  let s4 := match cfg.normalization with
    | ScrubNormalization.None => sb3.1
    | ScrubNormalization.Nfc => nfc sb3.1
    | ScrubNormalization.Nfkc => nfkc sb3.1
  let s5 := match cfg.case with
    | ScrubCase.None => s4
    | ScrubCase.Lower => fold s4
  let s6 := if cfg.strip_diacritics then strip_diacritics s5 else s5
  let sb7 := if cfg.collapse_whitespace then
    (collapse_whitespace_into s6 sb3.2, s6) else (s6, sb3.2)
  sb7.1

/-- The pipeline as the spec states it (section 4.3): the composition, in this
fixed order, of exactly the steps enabled by the config - (1) newline
normalization, (2) zero-width removal, (3) bidi-control removal,
(4) normalization form, (5) case policy, (6) diacritic stripping,
(7) whitespace collapsing always last.  Written from the spec's words, to be
compared with `scrub_with` (written from the source). -/
def scrubPipelineSpec (cfg : ScrubConfig) (text : List Char) : List Char :=
  let s1 := if cfg.normalize_newlines then normalize_newlines text else text
  let s2 := if cfg.remove_zero_width then remove_zero_width s1 else s1
  let s3 := if cfg.remove_bidi_controls then remove_bidi_controls s2 else s2
  let s4 := match cfg.normalization with
    | ScrubNormalization.None => s3
    | ScrubNormalization.Nfc => nfc s3
    | ScrubNormalization.Nfkc => nfkc s3
  let s5 := match cfg.case with
    | ScrubCase.None => s4
    | ScrubCase.Lower => fold s4
  let s6 := if cfg.strip_diacritics then strip_diacritics s5 else s5
  if cfg.collapse_whitespace then collapse_whitespace s6 else s6

example : scrub_with "MUller".data ScrubConfig.search_key = "muller".data := by decide
example :
    scrub_with ['M', Char.ofNat 0xFC, 'l', 'l', 'e', 'r'] ScrubConfig.search_key
      = "muller".data := by decide
example :
    scrub_with ['x', Char.ofNat 0x200D, 'y'] ScrubConfig.search_key
      = ['x', Char.ofNat 0x200D, 'y'] := by decide
example :
    scrub_with ['x', Char.ofNat 0x200D, 'y'] ScrubConfig.search_key_strict_invisibles
      = ['x', 'y'] := by decide

/-! ## Keyword matcher (src/flash.rs) -/

/-- Rust `KeywordMatch` (src/flash.rs).  The Rust field `end` is spelled `end_`
(`end` is reserved in Lean). -/
structure KeywordMatch where
  keyword : List Char
  value : List Char
  start : Nat
  end_ : Nat
deriving DecidableEq, Repr

/-- Rust `to_ascii_lowercase` on one scalar value (Rust standard library;
ASCII letters map to their lowercase form, everything else is unchanged). -/
def asciiLowerChar (c : Char) : Char :=
  if 0x41 ≤ c.toNat && c.toNat ≤ 0x5A then Char.ofNat (c.toNat + 0x20) else c

/-- One-character comparison used by the modelled automaton: exact equality,
or ASCII-case-insensitive equality when `ci` is set. -/
def charMatchesCI (ci : Bool) (a b : Char) : Bool :=
  a == b || (ci && (asciiLowerChar a == asciiLowerChar b))

/-- Does pattern `p` match a prefix of `l` (ASCII-case-insensitive iff `ci`)? -/
def matchesAt (ci : Bool) : List Char → List Char → Bool
  | [], _ => true
  | _ :: _, [] => false
  | p :: ps, t :: ts => charMatchesCI ci p t && matchesAt ci ps ts

/-- Among the patterns (numbered from `i`), the best match at the head of
`l`: longest wins, earliest pattern index wins ties.  Returns
(pattern index, match length). -/
def bestAt (ci : Bool) : Nat → List (List Char) → List Char → Option (Nat × Nat)
  | _, [], _ => none
  | i, p :: ps, l =>
    let rest := bestAt ci (i + 1) ps l
    if matchesAt ci p l then
      match rest with
      | some (j, m) => if p.length < m then some (j, m) else some (i, p.length)
      | none => some (i, p.length)
    else rest

/-- Modelled from the spec: the match iteration of the external `aho-corasick`
automaton (outside this repository) under `MatchKind::LeftmostLongest`, as a
reference scan in character coordinates: repeatedly report the leftmost
position where some pattern matches, longest pattern first, then resume at
the end of the reported match (after an empty match, at the next character).
Produces (pattern index, start, end) in character coordinates, left to
right, non-overlapping. -/
def acFindGo (ci : Bool) (pats : List (List Char)) :
    Nat → List Char → Nat → List (Nat × Nat × Nat)
  | 0, _, _ => []
  | _ + 1, [], i =>
    match bestAt ci 0 pats [] with
    | some (j, _) => [(j, i, i)]
    | none => []
  | fuel + 1, c :: r, i =>
    match bestAt ci 0 pats (c :: r) with
    | none => acFindGo ci pats fuel r (i + 1)
    | some (j, len) =>
      if len = 0 then (j, i, i) :: acFindGo ci pats fuel r (i + 1)
      else (j, i, i + len) :: acFindGo ci pats fuel (r.drop (len - 1)) (i + len)

/-- The reference scan, started with enough fuel to finish (every step either
ends the scan or consumes at least one character, so `length + 1` suffices). -/
def acFind (ci : Bool) (pats : List (List Char)) (l : List Char) (i : Nat) :
    List (Nat × Nat × Nat) :=
  acFindGo ci pats (l.length + 1) l i

/-- UTF-8 encoded size of one scalar value (1 to 4 bytes). -/
def utf8Size (c : Char) : Nat :=
  if c.toNat < 0x80 then 1
  else if c.toNat < 0x800 then 2
  else if c.toNat < 0x10000 then 3
  else 4

/-- UTF-8 encoded length of a character list. -/
def utf8Len (l : List Char) : Nat :=
  (l.map utf8Size).sum

/-- Byte offset of character position `k` in `text` (a UTF-8 boundary). -/
def byteOff (text : List Char) (k : Nat) : Nat :=
  utf8Len (text.take k)

/-- The automaton handle built by `AhoCorasick::builder().build(..)`:
the pattern list and the `ascii_case_insensitive` option. -/
structure AhoCorasick where
  patterns : List (List Char)
  ascii_ci : Bool

/-- Modelled from the spec: the external automaton builder; per the spec,
building always succeeds for valid string patterns, so it is total. -/
def acBuild (pats : List (List Char)) (ci : Bool) : AhoCorasick :=
  { patterns := pats, ascii_ci := ci }

/-- Modelled from the spec: `find_iter` reports byte offsets into the UTF-8
encoding of `text`, in non-decreasing order. -/
def AhoCorasick.find_iter (ac : AhoCorasick) (text : List Char) : List (Nat × Nat × Nat) :=
  (acFind ac.ascii_ci ac.patterns text 0).map
    (fun m => (m.1, byteOff text m.2.1, byteOff text m.2.2))

/-- Rust `text[a..b].chars().count()` for byte offsets `a ≤ b` that are character
boundaries of `text`: the number of characters whose starting byte offset
lies in `[a, b)`. -/
def charsInByteRange (text : List Char) (a b : Nat) : Nat :=
  ((List.range text.length).filter
    (fun k => decide (a ≤ byteOff text k) && decide (byteOff text k < b))).length

/-- Rust `FlashText` (src/flash.rs).  The `HashMap` is modelled as an association
list consulted through `List.lookup` (insertion prepends, so lookup sees the
newest binding - the overwrite semantics of `HashMap::insert`). -/
structure FlashText where
  keywords : List (List Char × List Char)
  matcher : Option AhoCorasick
  pattern_list : List (List Char)
  case_insensitive : Bool

/-- Rust `FlashText::new` (src/flash.rs). -/
def FlashText.new : FlashText :=
  { keywords := [], matcher := none, pattern_list := [], case_insensitive := true }

/-- Rust `FlashText::add_keyword` (src/flash.rs): register the pattern
(overwriting the payload for an identical pattern), remember it in
`pattern_list`, and invalidate the automaton. -/
def FlashText.add_keyword (ft : FlashText) (kw val : List Char) : FlashText :=
  { ft with
    keywords := (kw, val) :: ft.keywords
    pattern_list := ft.pattern_list ++ [kw]
    matcher := none }

/-- Rust `FlashText::ensure_built` (src/flash.rs): build the automaton from the
current pattern list if it is absent. -/
def FlashText.ensure_built (ft : FlashText) : FlashText :=
  match ft.matcher with
  | none => { ft with matcher := some (acBuild ft.pattern_list ft.case_insensitive) }
  | some _ => ft

/-- The byte-to-character conversion loop of `FlashText::find_into`
(src/flash.rs): walk the byte-offset matches, carrying the byte and
character positions of the previous match's end (`last_byte`, `last_char`);
the defensive branch recounts from the start of the text. -/
def findLoop (kws : List (List Char × List Char)) (plist : List (List Char))
    (text : List Char) :
    List (Nat × Nat × Nat) → Nat → Nat → List KeywordMatch
  | [], _, _ => []
  | (pidx, bs, be) :: ms, last_byte, last_char =>
    let pattern := plist.getD pidx []
    let value := (List.lookup pattern kws).getD pattern
    let startc :=
      if last_byte ≤ bs then last_char + charsInByteRange text last_byte bs
      else charsInByteRange text 0 bs
    let len := charsInByteRange text bs be
    { keyword := pattern, value := value, start := startc, end_ := startc + len }
      :: findLoop kws plist text ms be (startc + len)

/-- Rust `FlashText::find_into` (src/flash.rs): clears `out` (so its prior
contents `_out` are irrelevant), ensures the automaton is built, and converts
its byte-offset matches to character offsets.  Returns the mutated matcher
state together with the matches.  The `none` branch is unreachable after
`ensure_built` (the Rust code unwraps). -/
def FlashText.find_into (ft : FlashText) (text : List Char)
    ( _out : List KeywordMatch) : FlashText × List KeywordMatch :=
  let ft2 := ft.ensure_built
  match ft2.matcher with
  | some ac => (ft2, findLoop ft2.keywords ft2.pattern_list text (ac.find_iter text) 0 0)
  | none => (ft2, [])

/-- Rust `FlashText::find` (src/flash.rs): `find_into` into a fresh vector. -/
def FlashText.find (ft : FlashText) (text : List Char) : FlashText × List KeywordMatch :=
  ft.find_into text []

example :
    ((FlashText.new.add_keyword "hello".data "greet".data).find "say HeLLo now".data).2
      = [{ keyword := "hello".data, value := "greet".data, start := 4, end_ := 9 }] := by
  decide

example :
    ((FlashText.new.add_keyword [Char.ofNat 0x6771, Char.ofNat 0x4EAC] "tokyo".data).find
        ['a', ' ', Char.ofNat 0x6771, Char.ofNat 0x4EAC, ' ', 'b']).2
      = [{ keyword := [Char.ofNat 0x6771, Char.ofNat 0x4EAC], value := "tokyo".data,
           start := 2, end_ := 4 }] := by
  decide

/-! ## Helper lemmas: deletion filters and offset reports -/

theorem filterNot_all (p : Char → Bool) (l : List Char) :
    ∀ c ∈ l.filter (fun c => !p c), p c = false := by
  intro c hc
  have h := List.mem_filter.mp hc
  simpa using h.2

theorem filterNot_idem (p : Char → Bool) (l : List Char) :
    (l.filter (fun c => !p c)).filter (fun c => !p c) = l.filter (fun c => !p c) := by
  apply List.filter_eq_self.mpr
  intro c hc
  simpa using filterNot_all p l c hc

theorem length_filterNot_add_countP (p : Char → Bool) (l : List Char) :
    (l.filter (fun c => !p c)).length + l.countP p = l.length := by
  induction l with
  | nil => simp
  | cons c r ih =>
    by_cases hc : p c = true <;>
      simp [List.filter_cons, List.countP_cons, hc] <;> omega

theorem enumFrom_filter_length (p : Char → Bool) (l : List Char) :
    ∀ n, ((List.enumFrom n l).filter (fun x => p x.2)).length = l.countP p := by
  induction l with
  | nil => intro n; simp
  | cons c r ih =>
    intro n
    by_cases hc : p c = true <;>
      simp [List.enumFrom, List.filter_cons, List.countP_cons, hc, ih (n + 1)]

theorem mem_enumFrom_le {x : Nat × Char} :
    ∀ {n : Nat} {l : List Char}, x ∈ List.enumFrom n l → n ≤ x.1 := by
  intro n l
  induction l generalizing n with
  | nil => intro h; simp at h
  | cons c r ih =>
    intro h
    simp only [List.enumFrom, List.mem_cons] at h
    rcases h with h | h
    · simp [h]
    · exact Nat.le_of_succ_le (ih h)

theorem mem_enumFrom_getElem {x : Nat × Char} :
    ∀ {n : Nat} {l : List Char}, x ∈ List.enumFrom n l → l[x.1 - n]? = some x.2 := by
  intro n l
  induction l generalizing n with
  | nil => intro h; simp at h
  | cons c r ih =>
    intro h
    simp only [List.enumFrom, List.mem_cons] at h
    rcases h with h | h
    · simp [h]
    · have h1 := mem_enumFrom_le h
      have h2 := ih h
      have hx : x.1 - n = (x.1 - (n + 1)) + 1 := by omega
      rw [hx]
      simpa using h2

theorem enumFrom_mem_of_getElem {l : List Char} :
    ∀ {n i : Nat} {c : Char}, l[i]? = some c → (n + i, c) ∈ List.enumFrom n l := by
  induction l with
  | nil => intro n i c h; simp at h
  | cons d r ih =>
    intro n i c h
    cases i with
    | zero =>
      simp only [List.getElem?_cons_zero, Option.some.injEq] at h
      simp [List.enumFrom, h]
    | succ k =>
      simp only [List.getElem?_cons_succ] at h
      have := @ih (n + 1) k c h
      simp only [List.enumFrom, List.mem_cons]
      right
      have hx : n + (k + 1) = (n + 1) + k := by omega
      rw [hx]
      exact this

theorem enumFrom_pairwise_lt (l : List Char) :
    ∀ n, (List.enumFrom n l).Pairwise (fun a b => a.1 < b.1) := by
  induction l with
  | nil => intro n; simp
  | cons c r ih =>
    intro n
    simp only [List.enumFrom]
    refine List.Pairwise.cons ?_ (ih (n + 1))
    intro y hy
    have := mem_enumFrom_le hy
    simpa using Nat.lt_of_lt_of_le (Nat.lt_succ_self n) this

/-- C5: for each of the two fixed character classes, `remove_<class>` leaves
no scalar value of the class, is idempotent, and deletes exactly the
occurrences that `<class>_with_offsets` reports; the offset report is
strictly left-to-right and each reported pair is the character of `s` at
that character offset; every occurrence is reported. -/
theorem removal_and_offset_laws (s : List Char) :
    (∀ c ∈ remove_zero_width s, isZeroWidth c = false) ∧
    remove_zero_width (remove_zero_width s) = remove_zero_width s ∧
    (remove_zero_width s).length + (zero_width_with_offsets s).length = s.length ∧
    (zero_width_with_offsets s).Pairwise (fun a b => a.1 < b.1) ∧
    (∀ x ∈ zero_width_with_offsets s, s[x.1]? = some x.2 ∧ isZeroWidth x.2 = true) ∧
    (∀ i c, s[i]? = some c → isZeroWidth c = true → (i, c) ∈ zero_width_with_offsets s) ∧
    (∀ c ∈ remove_bidi_controls s, isBidiControl c = false) ∧
    remove_bidi_controls (remove_bidi_controls s) = remove_bidi_controls s ∧
    (remove_bidi_controls s).length + (bidi_controls_with_offsets s).length = s.length ∧
    (bidi_controls_with_offsets s).Pairwise (fun a b => a.1 < b.1) ∧
    (∀ x ∈ bidi_controls_with_offsets s, s[x.1]? = some x.2 ∧ isBidiControl x.2 = true) ∧
    (∀ i c, s[i]? = some c → isBidiControl c = true → (i, c) ∈ bidi_controls_with_offsets s) := by
  have henum : s.enum = List.enumFrom 0 s := rfl
  refine ⟨filterNot_all isZeroWidth s, filterNot_idem isZeroWidth s, ?_, ?_, ?_, ?_,
    filterNot_all isBidiControl s, filterNot_idem isBidiControl s, ?_, ?_, ?_, ?_⟩
  · rw [zero_width_with_offsets, henum, enumFrom_filter_length isZeroWidth s 0]
    exact length_filterNot_add_countP isZeroWidth s
  · exact List.Pairwise.filter _ (enumFrom_pairwise_lt s 0)
  · intro x hx
    have h := List.mem_filter.mp hx
    have hg := @mem_enumFrom_getElem x 0 s (by simpa [henum] using h.1)
    exact ⟨by simpa using hg, h.2⟩
  · intro i c hget hzw
    have := @enumFrom_mem_of_getElem s 0 i c hget
    exact List.mem_filter.mpr ⟨by simpa [henum] using this, hzw⟩
  · rw [bidi_controls_with_offsets, henum, enumFrom_filter_length isBidiControl s 0]
    exact length_filterNot_add_countP isBidiControl s
  · exact List.Pairwise.filter _ (enumFrom_pairwise_lt s 0)
  · intro x hx
    have h := List.mem_filter.mp hx
    have hg := @mem_enumFrom_getElem x 0 s (by simpa [henum] using h.1)
    exact ⟨by simpa using hg, h.2⟩
  · intro i c hget hb
    have := @enumFrom_mem_of_getElem s 0 i c hget
    exact List.mem_filter.mpr ⟨by simpa [henum] using this, hb⟩

/-! ## Helper lemmas: whitespace collapsing -/

/-- Every whitespace character of `l` is the ASCII space. -/
def AllWsIsSpace (l : List Char) : Prop :=
  ∀ c ∈ l, isWhitespace c = true → c = ' '

/-- No two adjacent characters of `l` are both ASCII spaces. -/
def NoTwoSpaces (l : List Char) : Prop :=
  List.Chain' (fun a b => ¬(a = ' ' ∧ b = ' ')) l

/-- The shape invariant of the `collapse_whitespace` output buffer. -/
def OutOk (l : List Char) : Prop :=
  AllWsIsSpace l ∧ l.head? ≠ some ' ' ∧ l.getLast? ≠ some ' ' ∧ NoTwoSpaces l

theorem space_isWhitespace : isWhitespace ' ' = true := by decide

theorem ne_space_of_not_ws {c : Char} (h : isWhitespace c = false) : c ≠ ' ' := by
  intro hc
  rw [hc] at h
  simp [space_isWhitespace] at h

theorem outOk_nil : OutOk [] := by
  refine ⟨?_, ?_, ?_, ?_⟩ <;> simp [AllWsIsSpace, NoTwoSpaces]

theorem noTwoSpaces_append_single {o : List Char} {c : Char}
    (h : NoTwoSpaces o) (hlast : o.getLast? ≠ some ' ' ∨ c ≠ ' ') :
    NoTwoSpaces (o ++ [c]) := by
  unfold NoTwoSpaces at h ⊢
  rw [List.chain'_append]
  refine ⟨h, List.chain'_singleton c, ?_⟩
  intro x hx y hy
  simp only [List.head?_cons, Option.mem_def, Option.some.injEq] at hy
  rintro ⟨hx', hy'⟩
  rcases hlast with hl | hc
  · exact hl (by rw [hx] at *; simp [hx'])
  · exact hc (hy ▸ hy')

theorem outOk_push {o : List Char} {c : Char} (h : OutOk o)
    (hc : isWhitespace c = false) : OutOk (o ++ [c]) := by
  obtain ⟨hws, hhead, hlast, htwo⟩ := h
  have hcs := ne_space_of_not_ws hc
  refine ⟨?_, ?_, ?_, ?_⟩
  · intro x hx hxw
    rcases List.mem_append.mp hx with hx | hx
    · exact hws x hx hxw
    · simp only [List.mem_singleton] at hx
      rw [hx] at hxw
      rw [hxw] at hc
      simp at hc
  · cases o with
    | nil => simpa using hcs
    | cons a t => simpa using (by simpa using hhead)
  · rw [List.getLast?_append]
    simpa using hcs
  · exact noTwoSpaces_append_single htwo (Or.inr hcs)

theorem outOk_push_sep {o : List Char} {c : Char} (h : OutOk o) (ho : o ≠ [])
    (hc : isWhitespace c = false) : OutOk (o ++ [' ', c]) := by
  obtain ⟨hws, hhead, hlast, htwo⟩ := h
  have hcs := ne_space_of_not_ws hc
  have hsplit : o ++ [' ', c] = (o ++ [' ']) ++ [c] := by simp
  refine ⟨?_, ?_, ?_, ?_⟩
  · intro x hx hxw
    rcases List.mem_append.mp hx with hx | hx
    · exact hws x hx hxw
    · simp only [List.mem_cons, List.not_mem_nil, or_false] at hx
      rcases hx with hx | hx
      · exact hx
      · rw [hx] at hxw
        rw [hxw] at hc
        simp at hc
  · cases o with
    | nil => exact absurd rfl ho
    | cons a t => simpa using (by simpa using hhead)
  · rw [hsplit, List.getLast?_append]
    simpa using hcs
  · rw [hsplit]
    refine noTwoSpaces_append_single ?_ (Or.inr hcs)
    exact noTwoSpaces_append_single htwo (Or.inl hlast)

theorem collapseLoop_outOk :
    ∀ (l : List Char) (inWs : Bool) (out : List Char),
      OutOk out → OutOk (collapseLoop inWs out l) := by
  intro l
  induction l with
  | nil => intro inWs out h; exact h
  | cons c r ih =>
    intro inWs out h
    by_cases hc : isWhitespace c = true
    · simp only [collapseLoop, hc, if_true]
      exact ih true out h
    · have hc' : isWhitespace c = false := by simpa using hc
      simp only [collapseLoop, hc', Bool.false_eq_true, if_false]
      by_cases hcond : (inWs && !out.isEmpty) = true
      · rw [if_pos hcond]
        refine ih false _ (outOk_push_sep h ?_ hc')
        cases out with
        | nil => simp at hcond
        | cons a t => simp
      · rw [if_neg hcond]
        exact ih false _ (outOk_push h hc')

theorem collapseLoop_chars :
    ∀ (l : List Char) (inWs : Bool) (out : List Char) (x : Char),
      x ∈ collapseLoop inWs out l →
      x ∈ out ∨ x = ' ' ∨ (x ∈ l ∧ isWhitespace x = false) := by
  intro l
  induction l with
  | nil => intro inWs out x hx; exact Or.inl hx
  | cons c r ih =>
    intro inWs out x hx
    by_cases hc : isWhitespace c = true
    · simp only [collapseLoop, hc, if_true] at hx
      rcases ih true out x hx with h | h | ⟨h1, h2⟩
      · exact Or.inl h
      · exact Or.inr (Or.inl h)
      · exact Or.inr (Or.inr ⟨List.mem_cons_of_mem c h1, h2⟩)
    · have hc' : isWhitespace c = false := by simpa using hc
      simp only [collapseLoop, hc', Bool.false_eq_true, if_false] at hx
      rcases ih false _ x hx with h | h | ⟨h1, h2⟩
      · rcases List.mem_append.mp h with h | h
        · exact Or.inl h
        · by_cases hcond : (inWs && !out.isEmpty) = true
          · rw [if_pos hcond] at h
            simp only [List.mem_cons, List.not_mem_nil, or_false] at h
            rcases h with h | h
            · exact Or.inr (Or.inl h)
            · exact Or.inr (Or.inr ⟨h ▸ List.mem_cons_self c r, h ▸ hc'⟩)
          · rw [if_neg hcond] at h
            simp only [List.mem_cons, List.not_mem_nil, or_false] at h
            exact Or.inr (Or.inr ⟨h ▸ List.mem_cons_self c r, h ▸ hc'⟩)
      · exact Or.inr (Or.inl h)
      · exact Or.inr (Or.inr ⟨List.mem_cons_of_mem c h1, h2⟩)

theorem getLast?_ne_of_cons {c d : Char} {t : List Char} {v : Char}
    (h : (c :: d :: t).getLast? ≠ some v) : (d :: t).getLast? ≠ some v := by
  rw [List.getLast?_cons_cons] at h
  exact h

theorem collapseLoop_fixed :
    ∀ (l : List Char) (out : List Char) (inWs : Bool),
      out ≠ [] →
      AllWsIsSpace l → NoTwoSpaces l → l.getLast? ≠ some ' ' →
      (inWs = true → l.head? ≠ some ' ') →
      collapseLoop inWs out l = out ++ (if inWs = true ∧ l ≠ [] then ' ' :: l else l) := by
  intro l
  induction l with
  | nil => intro out inWs _ _ _ _ _; simp [collapseLoop]
  | cons c r ih =>
    intro out inWs hout hws htwo hlast hhead
    have hrws : AllWsIsSpace r := fun x hx => hws x (List.mem_cons_of_mem c hx)
    have hrtwo : NoTwoSpaces r := List.Chain'.tail htwo
    by_cases hc : isWhitespace c = true
    · have hcsp : c = ' ' := hws c (List.mem_cons_self c r) hc
      cases inWs with
      | true =>
        exact absurd (by rw [hcsp]; rfl) (hhead rfl)
      | false =>
        simp only [collapseLoop, hc, if_true]
        have hrne : r ≠ [] := by
          intro hre
          rw [hre, hcsp] at hlast
          simp at hlast
        have hrhead : r.head? ≠ some ' ' := by
          cases r with
          | nil => exact absurd rfl hrne
          | cons d t =>
            intro hd
            simp only [List.head?_cons, Option.some.injEq] at hd
            rw [hcsp] at htwo
            exact (List.chain'_cons.mp htwo).1 ⟨rfl, hd⟩
        have hrlast : r.getLast? ≠ some ' ' := by
          cases r with
          | nil => exact absurd rfl hrne
          | cons d t => exact getLast?_ne_of_cons hlast
        rw [ih out true hout hrws hrtwo hrlast (fun _ => hrhead)]
        simp [hrne, hcsp]
    · have hc' : isWhitespace c = false := by simpa using hc
      have hrlast : r.getLast? ≠ some ' ' := by
        cases r with
        | nil => simp
        | cons d t => exact getLast?_ne_of_cons hlast
      cases out with
      | nil => exact absurd rfl hout
      | cons a tl =>
        simp only [collapseLoop, hc', Bool.false_eq_true, if_false]
        cases inWs with
        | true =>
          have hcond : (true && !(a :: tl).isEmpty) = true := by simp
          rw [if_pos hcond]
          rw [ih ((a :: tl) ++ [' ', c]) false (by simp) hrws hrtwo hrlast
            (by intro h; exact absurd h (by simp))]
          simp [List.append_assoc]
        | false =>
          have hcond : ¬((false && !(a :: tl).isEmpty) = true) := by simp
          rw [if_neg hcond]
          rw [ih ((a :: tl) ++ [c]) false (by simp) hrws hrtwo hrlast
            (by intro h; exact absurd h (by simp))]
          simp [List.append_assoc]

theorem collapse_of_outOk {o : List Char} (h : OutOk o) : collapse_whitespace o = o := by
  obtain ⟨hws, hhead, hlast, htwo⟩ := h
  cases o with
  | nil => rfl
  | cons c r =>
    have hc' : isWhitespace c = false := by
      by_cases hc : isWhitespace c = true
      · exact absurd (by rw [hws c (List.mem_cons_self c r) hc]; rfl) hhead
      · simpa using hc
    have hrlast : r.getLast? ≠ some ' ' := by
      cases r with
      | nil => simp
      | cons d t => exact getLast?_ne_of_cons hlast
    show collapseLoop true [] (c :: r) = c :: r
    simp only [collapseLoop, hc', Bool.false_eq_true, if_false, List.isEmpty_nil,
      Bool.not_true, Bool.and_false, List.nil_append]
    rw [collapseLoop_fixed r [c] false (by simp)
      (fun x hx => hws x (List.mem_cons_of_mem c hx))
      (List.Chain'.tail htwo) hrlast (by intro h; exact absurd h (by simp))]
    simp

theorem collapse_outOk (s : List Char) : OutOk (collapse_whitespace s) :=
  collapseLoop_outOk s true [] outOk_nil

theorem collapse_idem (s : List Char) :
    collapse_whitespace (collapse_whitespace s) = collapse_whitespace s :=
  collapse_of_outOk (collapse_outOk s)

/-- C6: `collapse_whitespace` yields no leading space, no trailing space, no
two adjacent spaces, every whitespace scalar of the output is the ASCII
space, and the function is idempotent. -/
theorem collapse_whitespace_laws (s : List Char) :
    (collapse_whitespace s).head? ≠ some ' ' ∧
    (collapse_whitespace s).getLast? ≠ some ' ' ∧
    List.Chain' (fun a b => ¬(a = ' ' ∧ b = ' ')) (collapse_whitespace s) ∧
    (∀ c ∈ collapse_whitespace s, isWhitespace c = true → c = ' ') ∧
    collapse_whitespace (collapse_whitespace s) = collapse_whitespace s := by
  obtain ⟨hws, hhead, hlast, htwo⟩ := collapse_outOk s
  exact ⟨hhead, hlast, htwo, hws, collapse_idem s⟩

/-! ## Helper lemmas: newline normalization and scalar-wise maps -/

theorem normalize_newlines_no_cr (s : List Char) :
    ∀ c ∈ normalize_newlines s, c ≠ '\r' := by
  induction s using normalize_newlines.induct with
  | case1 => simp [normalize_newlines]
  | case2 rest ih =>
    intro c hc
    simp only [normalize_newlines, List.mem_cons] at hc
    rcases hc with hc | hc
    · rw [hc]; decide
    · exact ih c hc
  | case3 rest hne ih =>
    intro c hc
    simp only [normalize_newlines, List.mem_cons] at hc
    rcases hc with hc | hc
    · rw [hc]; decide
    · exact ih c hc
  | case4 d rest hne1 hne2 ih =>
    intro c hc
    simp only [normalize_newlines, List.mem_cons] at hc
    rcases hc with hc | hc
    · rw [hc]; exact fun hd => hne2 hd
    · exact ih c hc

theorem normalize_newlines_id_of_no_cr (s : List Char)
    (h : ∀ c ∈ s, c ≠ '\r') : normalize_newlines s = s := by
  induction s using normalize_newlines.induct with
  | case1 => rfl
  | case2 rest ih =>
    exact absurd rfl (h '\r' (by simp))
  | case3 rest hne ih =>
    exact absurd rfl (h '\r' (by simp))
  | case4 d rest hne1 hne2 ih =>
    have step : normalize_newlines (d :: rest) = d :: normalize_newlines rest := by
      simp only [normalize_newlines]
    rw [step, ih (fun x hx => h x (List.mem_cons_of_mem d hx))]

theorem flatMap_id_of_fixed (f : Char → List Char) (l : List Char)
    (h : ∀ c ∈ l, f c = [c]) : l.flatMap f = l := by
  induction l with
  | nil => rfl
  | cons c rest ih =>
    rw [List.flatMap_cons, h c (List.mem_cons_self c rest),
      ih (fun x hx => h x (List.mem_cons_of_mem c hx))]
    rfl

theorem mem_flatMap_closure {f : Char → List Char} {l : List Char} {x : Char}
    (hx : x ∈ l.flatMap f) : ∃ c ∈ l, x ∈ f c := by
  simpa using List.mem_flatMap.mp hx

theorem filter_id_of_none {p : Char → Bool} {l : List Char}
    (h : ∀ c ∈ l, p c = false) : l.filter (fun c => !p c) = l := by
  apply List.filter_eq_self.mpr
  intro c hc
  simp [h c hc]

/-! ## C8 and C3 -/

/-- C8: each buffer-reusing variant equals its allocating counterpart for
every input and every prior buffer content (the `_into` functions clear the
buffer first), and `find`/`find_into` agree. -/
theorem into_variants_match_allocating (s buf : List Char) (ft : FlashText)
    (text : List Char) (out : List KeywordMatch) :
    normalize_newlines_into s buf = normalize_newlines s ∧
    collapse_whitespace_into s buf = collapse_whitespace s ∧
    remove_zero_width_into s buf = remove_zero_width s ∧
    remove_bidi_controls_into s buf = remove_bidi_controls s ∧
    ft.find_into text out = ft.find text :=
  ⟨rfl, rfl, rfl, rfl, rfl⟩

/-- C3: `scrub_with` is exactly the composition, in the spec's fixed order,
of the steps enabled by the config, with whitespace collapsing last. -/
theorem scrub_with_eq_ordered_composition (s : List Char) (cfg : ScrubConfig) :
    scrub_with s cfg = scrubPipelineSpec cfg s := by
  rcases cfg with ⟨nn, zw, bd, cw, norm, cs, sd⟩
  cases nn <;> cases zw <;> cases bd <;> cases cw <;> cases norm <;> cases cs <;> cases sd <;> rfl

/-! ## Helper lemmas: the preset pipelines converge in one pass -/

theorem char_eq_of_toNat {c : Char} {n : Nat} (h : c.toNat = n) : c = Char.ofNat n := by
  rw [← h, Char.ofNat_toNat]

/-- One character pushed through normalization, case mapping and diacritic
stripping: the per-character action of steps 4-6 of the preset pipelines. -/
def dlkChar (c : Char) : List Char :=
  (((nfkcChar c).flatMap lowerChar).flatMap nfdChar).filter (fun y => !is_combining_mark y)

theorem strip_fold_nfkc_eq_flatMap (s : List Char) :
    strip_diacritics (fold (nfkc s)) = s.flatMap dlkChar := by
  unfold strip_diacritics fold nfkc nfd dlkChar
  simp only [List.filter_flatMap, List.flatMap_assoc]

/-- A character left fixed by every content step of the preset pipelines. -/
def PipeFixed (c : Char) : Prop :=
  nfkcChar c = [c] ∧ lowerChar c = [c] ∧ nfdChar c = [c] ∧
  is_combining_mark c = false ∧ isBidiControl c = false ∧ c ≠ '\r'

/-- The domain of the finite tables of the modelled Unicode primitives. -/
def inTables (c : Char) : Bool :=
  (0x41 ≤ c.toNat && c.toNat ≤ 0x5A) ||
  c.toNat = 0xE9 || c.toNat = 0xC9 || c.toNat = 0xFC || c.toNat = 0xDC ||
  c.toNat = 0xE4 || c.toNat = 0xE7 || c.toNat = 0xC7 || c.toNat = 0xC5 ||
  c.toNat = 0xE5 || c.toNat = 0x304C || c.toNat = 0xFB01 || c.toNat = 0xA8 ||
  c.toNat = 0x3000 || c.toNat = 0x212B || c.toNat = 0x130 || c.toNat = 0x3A3

/-- The table domain as an explicit character list. -/
def tableDomain : List Char :=
  ((List.range 26).map (fun k => Char.ofNat (0x41 + k))) ++
  [Char.ofNat 0xE9, Char.ofNat 0xC9, Char.ofNat 0xFC, Char.ofNat 0xDC,
   Char.ofNat 0xE4, Char.ofNat 0xE7, Char.ofNat 0xC7, Char.ofNat 0xC5,
   Char.ofNat 0xE5, Char.ofNat 0x304C, Char.ofNat 0xFB01, Char.ofNat 0xA8,
   Char.ofNat 0x3000, Char.ofNat 0x212B, Char.ofNat 0x130, Char.ofNat 0x3A3]

theorem mem_tableDomain_of_inTables {c : Char} (h : inTables c = true) :
    c ∈ tableDomain := by
  unfold inTables at h
  simp only [Bool.or_eq_true, Bool.and_eq_true, decide_eq_true_eq, or_assoc] at h
  unfold tableDomain
  rw [List.mem_append]
  rcases h with ⟨h1, h2⟩ | h | h | h | h | h | h | h | h | h | h | h | h | h | h | h | h
  · left
    refine List.mem_map.mpr ⟨c.toNat - 0x41, List.mem_range.mpr (by omega), ?_⟩
    rw [show 0x41 + (c.toNat - 0x41) = c.toNat by omega, Char.ofNat_toNat]
  all_goals right
  all_goals rw [char_eq_of_toNat h]
  all_goals simp

instance decPipeFixed (c : Char) : Decidable (PipeFixed c) := by
  unfold PipeFixed
  exact inferInstance

theorem dlk_closure_tabled :
    ∀ c0 ∈ tableDomain, ∀ x ∈ dlkChar c0,
      isWhitespace x = true ∨
        (PipeFixed x ∧ (isZeroWidth x = true → isZeroWidth c0 = true)) := by
  decide

theorem dlk_closure (c : Char) (hb : isBidiControl c = false) :
    ∀ x ∈ dlkChar c,
      isWhitespace x = true ∨
        (PipeFixed x ∧ (isZeroWidth x = true → isZeroWidth c = true)) := by
  by_cases ht : inTables c = true
  · exact dlk_closure_tabled c (mem_tableDomain_of_inTables ht)
  · have ht' : inTables c = false := by simpa using ht
    unfold inTables at ht'
    simp only [Bool.or_eq_false_iff, Bool.and_eq_false_iff, decide_eq_false_iff_not,
      Bool.and_eq_false_imp, decide_eq_true_eq, and_assoc] at ht'
    obtain ⟨hr, h1, h2, h3, h4, h5, h6, h7, h8, h9, h10, h11, h12, h13, h14, h15, h16⟩ := ht'
    have hk : nfkcChar c = [c] := by
      unfold nfkcChar
      rw [if_neg h11, if_neg h12, if_neg h13, if_neg h14]
    have hl : lowerChar c = [c] := by
      unfold lowerChar
      rw [if_neg ?_, if_neg h2, if_neg h4, if_neg h7, if_neg h8, if_neg h15, if_neg h16]
      simp only [Bool.and_eq_true, decide_eq_true_eq, not_and]
      intro ha hb2
      rcases hr with h | h
      · exact h ha
      · exact h hb2
    have hn : nfdChar c = [c] := by
      unfold nfdChar
      rw [if_neg h1, if_neg h2, if_neg h3, if_neg h4, if_neg h5, if_neg h6, if_neg h7,
        if_neg h8, if_neg h9, if_neg h10]
    by_cases hm : is_combining_mark c = true
    · have hempty : dlkChar c = [] := by
        unfold dlkChar
        rw [hk]
        simp [hl, hn, hm]
      intro x hx
      rw [hempty] at hx
      simp at hx
    · have hm' : is_combining_mark c = false := by simpa using hm
      have hone : dlkChar c = [c] := by
        unfold dlkChar
        rw [hk]
        simp [hl, hn, hm']
      intro x hx
      rw [hone] at hx
      simp only [List.mem_cons, List.not_mem_nil, or_false] at hx
      rw [hx]
      by_cases hw : isWhitespace c = true
      · exact Or.inl hw
      · right
        refine ⟨⟨hk, hl, hn, hm', hb, ?_⟩, fun h => h⟩
        intro hcr
        rw [hcr] at hw
        exact hw (by decide)

theorem scrub_search_key_unfold (s : List Char) :
    scrub_with s ScrubConfig.search_key =
      collapse_whitespace (strip_diacritics (fold (nfkc
        (remove_bidi_controls (normalize_newlines s))))) := rfl

theorem scrub_strict_unfold (s : List Char) :
    scrub_with s ScrubConfig.search_key_strict_invisibles =
      collapse_whitespace (strip_diacritics (fold (nfkc
        (remove_bidi_controls (remove_zero_width (normalize_newlines s)))))) := rfl

theorem pipeFixed_space : PipeFixed ' ' := by
  refine ⟨?_, ?_, ?_, ?_, ?_, ?_⟩ <;> decide

theorem key_output_fixed (s : List Char) :
    ∀ x ∈ scrub_with s ScrubConfig.search_key, PipeFixed x := by
  intro x hx
  rw [scrub_search_key_unfold, strip_fold_nfkc_eq_flatMap] at hx
  rcases collapseLoop_chars _ true [] x hx with h | h | ⟨h1, h2⟩
  · simp at h
  · rw [h]; exact pipeFixed_space
  · rcases mem_flatMap_closure h1 with ⟨c, hc, hxc⟩
    have hb : isBidiControl c = false := filterNot_all isBidiControl _ c hc
    rcases dlk_closure c hb x hxc with hw | ⟨hf, _⟩
    · rw [h2] at hw
      exact absurd hw (by simp)
    · exact hf

theorem strict_output_fixed (s : List Char) :
    ∀ x ∈ scrub_with s ScrubConfig.search_key_strict_invisibles,
      PipeFixed x ∧ isZeroWidth x = false := by
  intro x hx
  rw [scrub_strict_unfold, strip_fold_nfkc_eq_flatMap] at hx
  rcases collapseLoop_chars _ true [] x hx with h | h | ⟨h1, h2⟩
  · simp at h
  · rw [h]; exact ⟨pipeFixed_space, by decide⟩
  · rcases mem_flatMap_closure h1 with ⟨c, hc, hxc⟩
    have hb : isBidiControl c = false := filterNot_all isBidiControl _ c hc
    have hcz : isZeroWidth c = false := by
      have hc' : c ∈ remove_zero_width (normalize_newlines s) :=
        (List.mem_filter.mp hc).1
      exact filterNot_all isZeroWidth _ c hc'
    rcases dlk_closure c hb x hxc with hw | ⟨hf, hz⟩
    · rw [h2] at hw
      exact absurd hw (by simp)
    · refine ⟨hf, ?_⟩
      by_cases hzx : isZeroWidth x = true
      · exact absurd (hz hzx) (by simp [hcz])
      · simpa using hzx

theorem scrub_key_second_pass (o : List Char) (hfix : ∀ x ∈ o, PipeFixed x)
    (hcoll : collapse_whitespace o = o) :
    scrub_with o ScrubConfig.search_key = o := by
  have h1 : normalize_newlines o = o :=
    normalize_newlines_id_of_no_cr o (fun c hc => (hfix c hc).2.2.2.2.2)
  have h2 : remove_bidi_controls o = o :=
    filter_id_of_none (fun c hc => (hfix c hc).2.2.2.2.1)
  have h3 : nfkc o = o := flatMap_id_of_fixed _ o (fun c hc => (hfix c hc).1)
  have h4 : fold o = o := flatMap_id_of_fixed _ o (fun c hc => (hfix c hc).2.1)
  have h5 : strip_diacritics o = o := by
    unfold strip_diacritics
    rw [show nfd o = o from flatMap_id_of_fixed _ o (fun c hc => (hfix c hc).2.2.1)]
    exact filter_id_of_none (fun c hc => (hfix c hc).2.2.2.1)
  rw [scrub_search_key_unfold, h1, h2, h3, h4, h5, hcoll]

/-- C1: `scrub_with` is idempotent for both named presets. -/
theorem scrub_presets_idempotent (s : List Char) :
    scrub_with (scrub_with s ScrubConfig.search_key) ScrubConfig.search_key
      = scrub_with s ScrubConfig.search_key ∧
    scrub_with (scrub_with s ScrubConfig.search_key_strict_invisibles)
        ScrubConfig.search_key_strict_invisibles
      = scrub_with s ScrubConfig.search_key_strict_invisibles := by
  constructor
  · have hcoll : collapse_whitespace (scrub_with s ScrubConfig.search_key)
        = scrub_with s ScrubConfig.search_key := by
      rw [scrub_search_key_unfold]
      exact collapse_idem _
    exact scrub_key_second_pass _ (key_output_fixed s) hcoll
  · have hfix := strict_output_fixed s
    set o := scrub_with s ScrubConfig.search_key_strict_invisibles with ho
    have h1 : normalize_newlines o = o :=
      normalize_newlines_id_of_no_cr o (fun c hc => ((hfix c hc).1).2.2.2.2.2)
    have hz : remove_zero_width o = o :=
      filter_id_of_none (fun c hc => (hfix c hc).2)
    have h2 : remove_bidi_controls o = o :=
      filter_id_of_none (fun c hc => ((hfix c hc).1).2.2.2.2.1)
    have h3 : nfkc o = o := flatMap_id_of_fixed _ o (fun c hc => ((hfix c hc).1).1)
    have h4 : fold o = o := flatMap_id_of_fixed _ o (fun c hc => ((hfix c hc).1).2.1)
    have h5 : strip_diacritics o = o := by
      unfold strip_diacritics
      rw [show nfd o = o from flatMap_id_of_fixed _ o (fun c hc => ((hfix c hc).1).2.2.1)]
      exact filter_id_of_none (fun c hc => ((hfix c hc).1).2.2.2.1)
    have hcoll : collapse_whitespace o = o := by
      rw [ho, scrub_strict_unfold]
      exact collapse_idem _
    rw [scrub_strict_unfold o, h1, hz, h2, h3, h4, h5, hcoll]

/-- C4: the `search_key` output never contains a bidi control; the
`search_key_strict_invisibles` output never contains a bidi control or a
zero-width character. -/
theorem scrub_presets_free_of_controls (s : List Char) :
    contains_bidi_controls (scrub_with s ScrubConfig.search_key) = false ∧
    contains_bidi_controls (scrub_with s ScrubConfig.search_key_strict_invisibles) = false ∧
    contains_zero_width (scrub_with s ScrubConfig.search_key_strict_invisibles) = false := by
  refine ⟨?_, ?_, ?_⟩
  · rw [contains_bidi_controls, List.any_eq_false]
    intro x hx
    simp [(key_output_fixed s x hx).2.2.2.2.1]
  · rw [contains_bidi_controls, List.any_eq_false]
    intro x hx
    simp [((strict_output_fixed s x hx).1).2.2.2.2.1]
  · rw [contains_zero_width, List.any_eq_false]
    intro x hx
    simp [(strict_output_fixed s x hx).2]

/-! ## C7: diacritic stripping -/

/-- C7 (amended): the diacritic-stripping step equals the canonical
decomposition of the input with every scalar value of the four Combining
Diacritical Marks blocks (U+0300..U+036F, U+1DC0..U+1DFF, U+20D0..U+20FF,
U+FE20..U+FE2F) deleted and no recomposition applied; the output contains no
scalar value from those blocks. -/
theorem strip_diacritics_is_nfd_minus_diacritical_blocks (s : List Char) :
    strip_diacritics s = (nfd s).filter (fun c => !is_combining_mark c) ∧
    ∀ c ∈ strip_diacritics s, is_combining_mark c = false :=
  ⟨rfl, fun c hc => filterNot_all is_combining_mark (nfd s) c hc⟩

/-- C7 counterexample: on the input consisting of the single scalar
U+3099 (COMBINING KATAKANA-HIRAGANA VOICED SOUND MARK, a category-M combining
mark with no canonical decomposition), `strip_diacritics` returns the mark
unchanged: the output contains a combining-mark scalar value and differs from
the canonical decomposition with every combining mark deleted. -/
theorem strip_diacritics_keeps_kana_voicing_mark :
    strip_diacritics [Char.ofNat 0x3099] = [Char.ofNat 0x3099] ∧
    isUnicodeCombiningMark (Char.ofNat 0x3099) = true ∧
    strip_diacritics [Char.ofNat 0x3099]
      ≠ (nfd [Char.ofNat 0x3099]).filter (fun c => !isUnicodeCombiningMark c) := by
  refine ⟨by decide, by decide, by decide⟩

/-! ## Helper lemmas: the matcher -/

theorem charMatchesCI_lower {ci : Bool} {a b : Char}
    (h : charMatchesCI ci a b = true) : asciiLowerChar a = asciiLowerChar b := by
  unfold charMatchesCI at h
  simp only [Bool.or_eq_true, Bool.and_eq_true, beq_iff_eq] at h
  rcases h with h | ⟨_, h⟩
  · rw [h]
  · exact h

theorem matchesAt_length {ci : Bool} :
    ∀ {p l : List Char}, matchesAt ci p l = true → p.length ≤ l.length := by
  intro p
  induction p with
  | nil => intro l _; simp
  | cons pc ps ih =>
    intro l h
    cases l with
    | nil => simp [matchesAt] at h
    | cons tc ts =>
      simp only [matchesAt, Bool.and_eq_true] at h
      simpa using Nat.succ_le_succ (ih h.2)

theorem matchesAt_lower {ci : Bool} :
    ∀ {p l : List Char}, matchesAt ci p l = true →
      (l.take p.length).map asciiLowerChar = p.map asciiLowerChar := by
  intro p
  induction p with
  | nil => intro l _; simp
  | cons pc ps ih =>
    intro l h
    cases l with
    | nil => simp [matchesAt] at h
    | cons tc ts =>
      simp only [matchesAt, Bool.and_eq_true] at h
      simp only [List.length_cons, List.take_succ_cons, List.map_cons]
      rw [charMatchesCI_lower h.1, ih h.2]

theorem bestAt_sound {ci : Bool} :
    ∀ (ps : List (List Char)) (i : Nat) (l : List Char) (j len : Nat),
      bestAt ci i ps l = some (j, len) →
      i ≤ j ∧ j - i < ps.length ∧
        ∃ p, ps[j - i]? = some p ∧ p.length = len ∧ matchesAt ci p l = true := by
  intro ps
  induction ps with
  | nil => intro i l j len h; simp [bestAt] at h
  | cons p ps ih =>
    intro i l j len h
    simp only [bestAt] at h
    by_cases hm : matchesAt ci p l = true
    · rw [if_pos hm] at h
      cases hrest : bestAt ci (i + 1) ps l with
      | none =>
        rw [hrest] at h
        simp only [Option.some.injEq, Prod.mk.injEq] at h
        refine ⟨by omega, by simp [← h.1], ?_⟩
        refine ⟨p, ?_, h.2.symm ▸ rfl, hm⟩
        rw [show j - i = 0 by omega]
        simp
      | some jm =>
        rw [hrest] at h
        obtain ⟨j', m'⟩ := jm
        dsimp only at h
        by_cases hlt : p.length < m'
        · rw [if_pos hlt] at h
          simp only [Option.some.injEq, Prod.mk.injEq] at h
          obtain ⟨hj, hlen⟩ := h
          obtain ⟨ha, hb, q, hq, hql, hqm⟩ := ih (i + 1) l j' m' hrest
          refine ⟨by omega, by simp; omega, q, ?_, by rw [hql, hlen], hqm⟩
          rw [show j - i = (j' - (i + 1)) + 1 by omega]
          simpa using hq
        · rw [if_neg hlt] at h
          simp only [Option.some.injEq, Prod.mk.injEq] at h
          refine ⟨by omega, by simp [← h.1], ?_⟩
          refine ⟨p, ?_, h.2.symm ▸ rfl, hm⟩
          rw [show j - i = 0 by omega]
          simp
    · rw [if_neg hm] at h
      obtain ⟨ha, hb, q, hq, hql, hqm⟩ := ih (i + 1) l j len h
      refine ⟨by omega, by simp; omega, q, ?_, hql, hqm⟩
      rw [show j - i = (j - (i + 1)) + 1 by omega]
      simpa using hq

/-- The per-match predicate established for the reference scan: bounds, a
registered pattern of the right length, and a case-insensitive match at the
reported character position. -/
def ScanSound (pats : List (List Char)) (ci : Bool) (l : List Char) (i : Nat)
    (m : Nat × Nat × Nat) : Prop :=
  i ≤ m.2.1 ∧ m.2.1 ≤ m.2.2 ∧ m.2.2 ≤ i + l.length ∧
  ∃ p, pats[m.1]? = some p ∧ p.length = m.2.2 - m.2.1 ∧
    matchesAt ci p (l.drop (m.2.1 - i)) = true

theorem acFindGo_sound {ci : Bool} {pats : List (List Char)} :
    ∀ (fuel : Nat) (l : List Char) (i : Nat),
      (∀ m ∈ acFindGo ci pats fuel l i, ScanSound pats ci l i m) ∧
      List.Chain' (fun m1 m2 => m1.2.2 ≤ m2.2.1) (acFindGo ci pats fuel l i) := by
  intro fuel
  induction fuel with
  | zero =>
    intro l i
    exact ⟨fun m hm => by simp [acFindGo] at hm, by simp [acFindGo]⟩
  | succ n ih =>
    intro l i
    cases l with
    | nil =>
      cases hb : bestAt ci 0 pats [] with
      | none =>
        exact ⟨fun m hm => by simp [acFindGo, hb] at hm, by simp [acFindGo, hb]⟩
      | some jl =>
        obtain ⟨j, len0⟩ := jl
        obtain ⟨-, hjlt, p, hp, hpl, hpm⟩ := bestAt_sound pats 0 [] j len0 hb
        simp only [Nat.sub_zero] at hjlt hp
        have hlen0 : len0 = 0 := by
          have h := matchesAt_length hpm
          simp only [List.length_nil, Nat.le_zero] at h
          omega
        constructor
        · intro m hm
          simp only [acFindGo, hb, List.mem_singleton] at hm
          rw [hm]
          refine ⟨Nat.le_refl i, Nat.le_refl i, by simp, p, hp, by dsimp only; omega, ?_⟩
          simpa using hpm
        · simp [acFindGo, hb]
    | cons c r =>
      cases hb : bestAt ci 0 pats (c :: r) with
      | none =>
        have heq : acFindGo ci pats (n + 1) (c :: r) i = acFindGo ci pats n r (i + 1) := by
          simp [acFindGo, hb]
        have ihr := ih r (i + 1)
        constructor
        · intro m hm
          rw [heq] at hm
          obtain ⟨h1, h2, h3, p, hp, hpl, hpm⟩ := ihr.1 m hm
          refine ⟨by omega, h2, by simp only [List.length_cons]; omega, p, hp, hpl, ?_⟩
          rw [show m.2.1 - i = (m.2.1 - (i + 1)) + 1 by omega]
          simpa using hpm
        · rw [heq]
          exact ihr.2
      | some jl =>
        obtain ⟨j, len⟩ := jl
        obtain ⟨-, hjlt, p, hp, hpl, hpm⟩ := bestAt_sound pats 0 (c :: r) j len hb
        simp only [Nat.sub_zero] at hjlt hp
        have hlenle : len ≤ r.length + 1 := by
          have := matchesAt_length hpm
          simp only [List.length_cons] at this
          omega
        by_cases hl0 : len = 0
        · have heq : acFindGo ci pats (n + 1) (c :: r) i
              = (j, i, i) :: acFindGo ci pats n r (i + 1) := by
            simp [acFindGo, hb, hl0]
          have ihr := ih r (i + 1)
          constructor
          · intro m hm
            rw [heq] at hm
            rcases List.mem_cons.mp hm with hm | hm
            · rw [hm]
              refine ⟨Nat.le_refl i, Nat.le_refl i, by simp, p, hp, by dsimp only; omega, ?_⟩
              simpa using hpm
            · obtain ⟨h1, h2, h3, q, hq, hql, hqm⟩ := ihr.1 m hm
              refine ⟨by omega, h2, by simp only [List.length_cons]; omega, q, hq, hql, ?_⟩
              rw [show m.2.1 - i = (m.2.1 - (i + 1)) + 1 by omega]
              simpa using hqm
          · rw [heq]
            refine List.chain'_cons'.mpr ⟨?_, ihr.2⟩
            intro y hy
            have hmem := List.mem_of_mem_head? hy
            have := (ihr.1 y hmem).1
            dsimp only at this ⊢
            omega
        · have heq : acFindGo ci pats (n + 1) (c :: r) i
              = (j, i, i + len) :: acFindGo ci pats n (r.drop (len - 1)) (i + len) := by
            simp [acFindGo, hb, hl0]
          have ihr := ih (r.drop (len - 1)) (i + len)
          have hdroplen : (r.drop (len - 1)).length = r.length - (len - 1) :=
            List.length_drop (len - 1) r
          constructor
          · intro m hm
            rw [heq] at hm
            rcases List.mem_cons.mp hm with hm | hm
            · rw [hm]
              refine ⟨Nat.le_refl i, by dsimp only; omega,
                by dsimp only; simp only [List.length_cons]; omega,
                p, hp, by dsimp only; omega, ?_⟩
              simpa using hpm
            · obtain ⟨h1, h2, h3, q, hq, hql, hqm⟩ := ihr.1 m hm
              rw [hdroplen] at h3
              refine ⟨by omega, h2, by simp only [List.length_cons]; omega, q, hq, hql, ?_⟩
              rw [List.drop_drop] at hqm
              rw [show m.2.1 - i = ((len - 1) + (m.2.1 - (i + len))) + 1 by omega]
              simpa using hqm
          · rw [heq]
            refine List.chain'_cons'.mpr ⟨?_, ihr.2⟩
            intro y hy
            have hmem := List.mem_of_mem_head? hy
            have := (ihr.1 y hmem).1
            dsimp only at this ⊢
            omega

theorem utf8Size_pos (c : Char) : 1 ≤ utf8Size c := by
  unfold utf8Size
  split_ifs <;> omega

theorem utf8Len_append (l1 l2 : List Char) :
    utf8Len (l1 ++ l2) = utf8Len l1 + utf8Len l2 := by
  simp [utf8Len]

theorem length_le_utf8Len (l : List Char) : l.length ≤ utf8Len l := by
  induction l with
  | nil => simp [utf8Len]
  | cons c r ih =>
    have := utf8Size_pos c
    simp only [utf8Len, List.map_cons, List.sum_cons, List.length_cons]
    simp only [utf8Len] at ih
    omega

theorem byteOff_split (text : List Char) (a b : Nat) (h : a ≤ b) :
    byteOff text b = byteOff text a + utf8Len ((text.take b).drop a) := by
  unfold byteOff
  conv_lhs => rw [← List.take_append_drop a (text.take b)]
  rw [utf8Len_append, List.take_take, Nat.min_eq_left h]

theorem byteOff_mono (text : List Char) {a b : Nat} (h : a ≤ b) :
    byteOff text a ≤ byteOff text b := by
  rw [byteOff_split text a b h]
  omega

theorem byteOff_strict (text : List Char) {a b : Nat} (h : a < b)
    (hb : b ≤ text.length) : byteOff text a < byteOff text b := by
  rw [byteOff_split text a b (Nat.le_of_lt h)]
  have h1 : ((text.take b).drop a).length = b - a := by
    rw [List.length_drop, List.length_take]
    omega
  have h2 := length_le_utf8Len ((text.take b).drop a)
  omega

theorem count_range_between :
    ∀ (n a b : Nat),
      ((List.range n).filter (fun k => decide (a ≤ k) && decide (k < b))).length
        = min b n - min a n := by
  intro n
  induction n with
  | zero => intro a b; simp
  | succ n ih =>
    intro a b
    rw [List.range_succ, List.filter_append, List.length_append, ih]
    by_cases h1 : a ≤ n <;> by_cases h2 : n < b <;>
      simp [h1, h2] <;> omega

theorem charsInByteRange_eval (text : List Char) {a b : Nat} (hab : a ≤ b)
    (hb : b ≤ text.length) :
    charsInByteRange text (byteOff text a) (byteOff text b) = b - a := by
  unfold charsInByteRange
  have hcong : ∀ k ∈ List.range text.length,
      (decide (byteOff text a ≤ byteOff text k) && decide (byteOff text k < byteOff text b))
        = (decide (a ≤ k) && decide (k < b)) := by
    intro k hk
    have hkn : k < text.length := List.mem_range.mp hk
    by_cases h1 : a ≤ k <;> by_cases h2 : k < b
    · have hm := byteOff_mono text h1
      have hs := byteOff_strict text h2 hb
      simp [h1, h2, hm, hs]
    · have hle : byteOff text b ≤ byteOff text k := byteOff_mono text (by omega)
      simp [h1, h2, Nat.not_lt.mpr hle]
    · have hlt : byteOff text k < byteOff text a := byteOff_strict text (by omega) (by omega)
      simp [h1, h2, Nat.not_le.mpr hlt]
    · have hlt : byteOff text k < byteOff text a := byteOff_strict text (by omega) (by omega)
      simp [h1, h2, Nat.not_le.mpr hlt]
  rw [List.filter_congr hcong, count_range_between]
  omega

theorem chain_start_ge (v : Nat) :
    ∀ (ms : List (Nat × Nat × Nat)),
      List.Chain' (fun m1 m2 => m1.2.2 ≤ m2.2.1) ms →
      (∀ m ∈ ms, m.2.1 ≤ m.2.2) →
      (∀ y ∈ ms.head?, v ≤ y.2.1) →
      ∀ m ∈ ms, v ≤ m.2.1 := by
  intro ms
  induction ms with
  | nil => intro _ _ _ m hm; simp at hm
  | cons y rest ih =>
    intro hchain hmono hhead m hm
    rcases List.mem_cons.mp hm with hm | hm
    · rw [hm]
      exact hhead y (by simp)
    · have hparts := List.chain'_cons'.mp hchain
      refine ih hparts.2 (fun z hz => hmono z (List.mem_cons_of_mem y hz)) ?_ m hm
      intro z hz
      have hyz := hparts.1 z hz
      have hy := hhead y (by simp)
      have hmy := hmono y (by simp)
      omega

theorem findLoop_eval (kws : List (List Char × List Char))
    (plist : List (List Char)) (text : List Char) :
    ∀ (ms : List (Nat × Nat × Nat)) (pc : Nat),
      pc ≤ text.length →
      (∀ m ∈ ms, pc ≤ m.2.1 ∧ m.2.1 ≤ m.2.2 ∧ m.2.2 ≤ text.length) →
      List.Chain' (fun m1 m2 => m1.2.2 ≤ m2.2.1) ms →
      findLoop kws plist text
        (ms.map (fun m => (m.1, byteOff text m.2.1, byteOff text m.2.2)))
        (byteOff text pc) pc
      = ms.map (fun m =>
          { keyword := plist.getD m.1 []
            value := (List.lookup (plist.getD m.1 []) kws).getD (plist.getD m.1 [])
            start := m.2.1
            end_ := m.2.2 }) := by
  intro ms
  induction ms with
  | nil => intro pc _ _ _; rfl
  | cons hd rest ih =>
    intro pc hpc hall hchain
    obtain ⟨j, s, e⟩ := hd
    have hh := hall (j, s, e) (List.mem_cons_self _ _)
    dsimp only at hh
    obtain ⟨h1, h2, h3⟩ := hh
    simp only [List.map_cons]
    rw [findLoop]
    rw [if_pos (byteOff_mono text h1)]
    rw [charsInByteRange_eval text h1 (by omega), charsInByteRange_eval text h2 h3]
    have hstart : pc + (s - pc) = s := by omega
    have hend : s + (e - s) = e := by omega
    rw [hstart, hend]
    have hrest : ∀ m ∈ rest, e ≤ m.2.1 ∧ m.2.1 ≤ m.2.2 ∧ m.2.2 ≤ text.length := by
      intro m hm
      have hbound := hall m (List.mem_cons_of_mem _ hm)
      have hge := chain_start_ge e rest (List.Chain'.tail hchain)
        (fun z hz => (hall z (List.mem_cons_of_mem _ hz)).2.1)
        (fun z hz => (List.chain'_cons'.mp hchain).1 z hz) m hm
      exact ⟨hge, hbound.2.1, hbound.2.2⟩
    rw [ih e h3 hrest (List.Chain'.tail hchain)]

/-- The C2 well-formedness property of one `find` call: every match is
in bounds, matches are ordered and non-overlapping, and the matched character
range, ASCII-lowercased, equals the pattern ASCII-lowercased. -/
def FindWellFormed (ft : FlashText) (text : List Char) : Prop :=
  (∀ m ∈ (ft.find text).2,
    m.start ≤ m.end_ ∧ m.end_ ≤ text.length ∧
    ((text.drop m.start).take (m.end_ - m.start)).map asciiLowerChar
      = m.keyword.map asciiLowerChar) ∧
  List.Chain' (fun m1 m2 => m1.end_ ≤ m2.start) (ft.find text).2

theorem ensure_built_fields (ft : FlashText)
    (hwf : ft.matcher = none ∨
      ft.matcher = some (acBuild ft.pattern_list ft.case_insensitive)) :
    (ft.ensure_built).matcher = some (acBuild ft.pattern_list ft.case_insensitive) ∧
    (ft.ensure_built).pattern_list = ft.pattern_list ∧
    (ft.ensure_built).keywords = ft.keywords := by
  rcases hwf with h | h <;> simp [FlashText.ensure_built, h]

/-- C2: for a matcher whose automaton is absent or built from the current
pattern list (the only states the `FlashText` operations produce), every
`find` result is well formed. -/
theorem find_matches_wellformed (ft : FlashText) (text : List Char)
    (hwf : ft.matcher = none ∨
      ft.matcher = some (acBuild ft.pattern_list ft.case_insensitive)) :
    FindWellFormed ft text := by
  obtain ⟨hm, hpl, hkw⟩ := ensure_built_fields ft hwf
  have hsound := @acFindGo_sound ft.case_insensitive ft.pattern_list
    (text.length + 1) text 0
  have hms : ∀ m ∈ acFind ft.case_insensitive ft.pattern_list text 0,
      0 ≤ m.2.1 ∧ m.2.1 ≤ m.2.2 ∧ m.2.2 ≤ text.length := by
    intro m hmem
    have := hsound.1 m hmem
    exact ⟨this.1, this.2.1, by have := this.2.2.1; omega⟩
  have hfind : (ft.find text).2 =
      (acFind ft.case_insensitive ft.pattern_list text 0).map (fun m =>
        { keyword := ft.pattern_list.getD m.1 []
          value := (List.lookup (ft.pattern_list.getD m.1 []) ft.keywords).getD
            (ft.pattern_list.getD m.1 [])
          start := m.2.1
          end_ := m.2.2 }) := by
    show (ft.find_into text []).2 = _
    unfold FlashText.find_into
    dsimp only
    rw [hm]
    dsimp only
    rw [hpl, hkw]
    unfold AhoCorasick.find_iter acBuild
    dsimp only
    have h0 : (0 : Nat) = byteOff text 0 := rfl
    rw [h0]
    exact findLoop_eval ft.keywords ft.pattern_list text _ 0 (Nat.zero_le _) hms hsound.2
  constructor
  · intro m hmem
    rw [hfind] at hmem
    obtain ⟨x, hx, hxm⟩ := List.mem_map.mp hmem
    obtain ⟨-, h2, h3, p, hp, hplen, hpm⟩ := hsound.1 x hx
    rw [← hxm]
    dsimp only
    refine ⟨h2, by omega, ?_⟩
    rw [List.getD_eq_getElem?_getD, hp, Option.getD_some]
    have := matchesAt_lower hpm
    rw [Nat.sub_zero] at hpm
    have hlower := @matchesAt_lower ft.case_insensitive p (text.drop x.2.1)
      (by simpa using hpm)
    rw [hplen] at hlower
    exact hlower
  · rw [hfind]
    rw [List.chain'_map]
    exact hsound.2

/-- C2 witness: a concrete matcher and text for which the well-formedness
theorem applies, its hypothesis discharged definitionally. -/
theorem find_matches_wellformed_witness :
    ((FlashText.new.add_keyword "hello".data "greet".data).matcher = none ∨
      (FlashText.new.add_keyword "hello".data "greet".data).matcher
        = some (acBuild
            (FlashText.new.add_keyword "hello".data "greet".data).pattern_list
            (FlashText.new.add_keyword "hello".data "greet".data).case_insensitive)) ∧
    FindWellFormed (FlashText.new.add_keyword "hello".data "greet".data)
      "say HeLLo now".data :=
  ⟨Or.inl rfl, find_matches_wellformed _ _ (Or.inl rfl)⟩

theorem findLoop_value (kws : List (List Char × List Char))
    (plist : List (List Char)) (text : List Char) :
    ∀ (ms : List (Nat × Nat × Nat)) (lb lc : Nat),
      ∀ m ∈ findLoop kws plist text ms lb lc,
        m.value = (List.lookup m.keyword kws).getD m.keyword := by
  intro ms
  induction ms with
  | nil => intro lb lc m hm; simp [findLoop] at hm
  | cons hd rest ih =>
    intro lb lc m hm
    obtain ⟨j, bs, be⟩ := hd
    rw [findLoop] at hm
    rcases List.mem_cons.mp hm with hm | hm
    · rw [hm]
    · exact ih _ _ m hm

/-- C9: `add_keyword` overwrites the payload for an identical pattern and
invalidates the automaton: after `add_keyword p v` the matcher is stale, the
registered payload for `p` is `v`, every match of `p` reported by the next
`find` carries `v`, and that `find` searches with an automaton rebuilt from
exactly the currently registered pattern list. -/
theorem add_keyword_overwrites_and_invalidates (ft : FlashText)
    (p v text : List Char) :
    (ft.add_keyword p v).matcher = none ∧
    List.lookup p (ft.add_keyword p v).keywords = some v ∧
    (∀ m ∈ ((ft.add_keyword p v).find text).2, m.keyword = p → m.value = v) ∧
    ((ft.add_keyword p v).find text).2 =
      findLoop ((p, v) :: ft.keywords) (ft.pattern_list ++ [p]) text
        ((acBuild (ft.pattern_list ++ [p]) ft.case_insensitive).find_iter text)
        0 0 := by
  refine ⟨rfl, by simp [FlashText.add_keyword, List.lookup], ?_, rfl⟩
  intro m hm hkw
  have hm' : m ∈ findLoop ((p, v) :: ft.keywords) (ft.pattern_list ++ [p]) text
      ((acBuild (ft.pattern_list ++ [p]) ft.case_insensitive).find_iter text)
      0 0 := hm
  have hv := findLoop_value _ _ _ _ _ _ m hm'
  rw [hkw] at hv
  simpa [List.lookup] using hv

theorem acFindGo_no_patterns (ci : Bool) :
    ∀ (fuel : Nat) (l : List Char) (i : Nat), acFindGo ci [] fuel l i = [] := by
  intro fuel
  induction fuel with
  | zero => intro l i; rfl
  | succ n ih =>
    intro l i
    cases l with
    | nil => rfl
    | cons c r =>
      show acFindGo ci [] (n + 1) (c :: r) i = []
      rw [acFindGo]
      exact ih r (i + 1)

/-- C10: automaton construction is total (the modelled builder always
succeeds, per the spec), so `ensure_built` always yields a built matcher -
the build-failure branch is unreachable - and `find` on a freshly
constructed matcher returns the empty match list. -/
theorem matcher_build_total_and_empty_find (ft : FlashText) (text : List Char) :
    ((FlashText.ensure_built ft).matcher).isSome = true ∧
    (FlashText.new.find text).2 = [] := by
  constructor
  · cases hm : ft.matcher with
    | none => simp [FlashText.ensure_built, hm]
    | some ac => simp [FlashText.ensure_built, hm]
  · show (FlashText.new.find_into text []).2 = []
    unfold FlashText.find_into
    dsimp only
    have hm : (FlashText.new.ensure_built).matcher = some (acBuild [] true) := rfl
    rw [hm]
    dsimp only
    unfold AhoCorasick.find_iter acBuild
    dsimp only
    unfold acFind
    rw [acFindGo_no_patterns]
    rfl
